import Mathlib

/-!
Shallow embedding of `main.py` (git contribution analyzer) and verification
of its specified properties.

Modelling conventions:
* A Python `datetime` is a pair of a calendar-day index (`day : ℤ`, days since
  an arbitrary epoch) and the second-of-day (`sec : ℕ`); comparison is
  lexicographic, `date()` is the `day` component, and `strptime(s, "%Y-%m-%d")`
  yields midnight of the parsed day (`sec = 0`).
* Python strings used for substring matching (file paths, messages,
  truncated SHAs) are `List Char`; `str.lower()` is `Char.toLower` mapped.
* `commit.stats.files` is `fileStats : Option (List FileStat)`; `none` models
  the per-commit stat extraction raising at first access (the `except` branch
  of `analyze_repo`), `some fs` the successful extraction.
* Aggregation state (`stats` defaultdict, `total_commits`, stdout error lines)
  is `RepoState`; the defaultdict is a total function from author name plus the
  finite set of keys that have been touched.
* Python's float division in derived ratios is exact division on `ℚ`.
-/

/-- A Python `datetime`: calendar-day index and second within the day. -/
structure DateTime where
  day : ℤ
  sec : ℕ
deriving DecidableEq, Repr

/-- `datetime` comparison `a < b` (lexicographic on day, then time of day). -/
def DateTime.ltb (a b : DateTime) : Bool :=
  a.day < b.day || (a.day == b.day && a.sec < b.sec)

/-- `datetime.strptime(s, "%Y-%m-%d")`: midnight of the given day. -/
def midnight (d : ℤ) : DateTime := ⟨d, 0⟩

/-- One entry of `commit.stats.files`: path plus insertion/deletion counts. -/
structure FileStat where
  path : List Char
  insertions : ℕ
  deletions : ℕ
deriving DecidableEq, Repr

/-- A commit as consumed by `analyze_repo`: author name, commit datetime,
message, sha, and the file stats (`none` when accessing `commit.stats.files`
raises). -/
structure Commit where
  authorName : String
  committedDate : DateTime
  message : List Char
  hexsha : List Char
  fileStats : Option (List FileStat)
deriving DecidableEq, Repr

/-- `str.lower()` on the character list. -/
def lowerL (s : List Char) : List Char := s.map Char.toLower

/-- Does `hay` start with `needle`? -/
def startsWithL : List Char → List Char → Bool
  | [], _ => true
  | _ :: _, [] => false
  | a :: as, b :: bs => a == b && startsWithL as bs

/-- Python's `needle in hay` substring test. -/
def containsSub (n : List Char) : List Char → Bool
  | [] => n.isEmpty
  | c :: t => startsWithL n (c :: t) || containsSub n t

/-- Keyword `"test"`. -/
def kwTest : List Char := "test".toList

/-- Keyword `"/tests/"`. -/
def kwSlashTests : List Char := "/tests/".toList

/-- Keyword `"doc"`. -/
def kwDoc : List Char := "doc".toList

/-- Keyword `"readme"`. -/
def kwReadme : List Char := "readme".toList

/-- Keyword `".md"`. -/
def kwDotMd : List Char := ".md".toList

/-- The `fix|bug|issue|error|crash|problem|fail` alternatives. -/
def fixKeywords : List (List Char) :=
  ["fix", "bug", "issue", "error", "crash", "problem", "fail"].map String.toList

/-- The `refactor|clean|improve|optimize|simplify` alternatives. -/
def refactorKeywords : List (List Char) :=
  ["refactor", "clean", "improve", "optimize", "simplify"].map String.toList

/-- The `feature|add|new|implement|support` alternatives. -/
def featureKeywords : List (List Char) :=
  ["feature", "add", "new", "implement", "support"].map String.toList

/-- `re.search(alt1|alt2|..., s)`: some alternative occurs as a substring. -/
def anyKeyword (kws : List (List Char)) (s : List Char) : Bool :=
  kws.any fun k => containsSub k s

/-- Keyword `"pull request"`. -/
def kwPullRequest : List Char := "pull request".toList

/-- Keyword `"pr #"`. -/
def kwPrHash : List Char := "pr #".toList

/-- Keyword `"merge"`. -/
def kwMerge : List Char := "merge".toList

/-- The PR-relatedness test on a commit message (line 204 of `main.py`). -/
def prRelatedB (msg : List Char) : Bool :=
  containsSub kwPullRequest (lowerL msg) || containsSub kwPrHash (lowerL msg) ||
    containsSub kwMerge (lowerL msg)

/-- The per-file test-bucket condition of `get_commit_complexity`
(line 102): `'test' in file.lower() or '/tests/' in file.lower()`. -/
def testCondB (p : List Char) : Bool :=
  containsSub kwTest (lowerL p) || containsSub kwSlashTests (lowerL p)

/-- The per-file doc-bucket condition of `get_commit_complexity`
(line 104): `'doc' in file.lower() or 'readme' in file.lower() or
'.md' in file.lower()`. -/
def docCondB (p : List Char) : Bool :=
  containsSub kwDoc (lowerL p) || containsSub kwReadme (lowerL p) ||
    containsSub kwDotMd (lowerL p)

/-- `file.split('.')[-1].lower()` when `'.' in file` (lines 110-112). -/
def extOf (p : List Char) : Option (List Char) :=
  if p.contains '.' then some (lowerL ((p.splitOn '.').getLastD [])) else none

/-- The metrics dictionary returned by `get_commit_complexity`. -/
structure ComplexityMetrics where
  test_changes : ℕ
  doc_changes : ℕ
  code_changes : ℕ
  is_fix : Bool
  is_refactor : Bool
  is_feature : Bool
  file_types : Finset (List Char)
  commit_size : ℕ
deriving DecidableEq

/-- One iteration of the `for file in commit.stats.files` loop of
`get_commit_complexity` (lines 98-112). -/
def complexityStep (m : ComplexityMetrics) (f : FileStat) : ComplexityMetrics :=
  let changes := f.insertions + f.deletions
  let m := { m with commit_size := m.commit_size + changes }
  let m :=
    if testCondB f.path then { m with test_changes := m.test_changes + changes }
    else if docCondB f.path then { m with doc_changes := m.doc_changes + changes }
    else { m with code_changes := m.code_changes + changes }
  match extOf f.path with
  | some e => { m with file_types := insert e m.file_types }
  | none => m

/-- `get_commit_complexity` (lines 66-114), on a commit's message and file
stats: message-pattern flags, then the per-file bucket accumulation. -/
def get_commit_complexity (message : List Char) (files : List FileStat) :
    ComplexityMetrics :=
  files.foldl complexityStep
    { test_changes := 0
      doc_changes := 0
      code_changes := 0
      is_fix := anyKeyword fixKeywords (lowerL message)
      is_refactor := anyKeyword refactorKeywords (lowerL message)
      is_feature := anyKeyword featureKeywords (lowerL message)
      file_types := ∅
      commit_size := 0 }

/-- Insert a value into an ascending list, keeping it ascending. -/
def insertSorted (x : ℤ) : List ℤ → List ℤ
  | [] => [x]
  | y :: t => if x ≤ y then x :: y :: t else y :: insertSorted x t

/-- Ascending insertion sort. -/
def sortInts (l : List ℤ) : List ℤ := l.foldr insertSorted []

/-- `sorted(set(d.date() for d in commit_dates))` (line 32): the distinct
calendar days in ascending order. -/
def sortedDates (l : List DateTime) : List ℤ :=
  sortInts (l.map DateTime.day).dedup

/-- The `for i in range(1, len(dates))` loop of `calculate_streaks`
(lines 41-49), with the final `longest_streak = max(longest_streak,
current_count)` folded into the base case: arguments are the previous date,
the running `longest_streak` and `current_count`, and the remaining dates. -/
def longestLoop (prev : ℤ) (longest count : ℕ) : List ℤ → ℕ
  | [] => max longest count
  | d :: rest =>
    if d - prev == 1 then longestLoop d longest (count + 1) rest
    else longestLoop d (max longest count) 1 rest

/-- The backward `while idx >= 0 and (current_date - dates[idx]) ==
timedelta(days=1)` walk of `calculate_streaks` (lines 57-60): extra streak
length collected from the dates strictly before the current one, listed in
descending order. -/
def backRun (cur : ℤ) : List ℤ → ℕ
  | [] => 0
  | d :: rest => if cur - d == 1 then 1 + backRun d rest else 0

/-- The current-streak computation of `calculate_streaks` (lines 52-62),
taking the distinct dates in descending order. -/
def currentOf (today : ℤ) : List ℤ → ℕ
  | [] => 0
  | dn :: rprev =>
    if dn == today || dn == today - 1 then 1 + backRun dn rprev else 0

/-- The body of `calculate_streaks` after the date list has been deduplicated
and sorted ascending (lines 33-64). -/
def streaksOfSorted (today : ℤ) : List ℤ → ℕ × ℕ
  | [] => (0, 0)
  | d0 :: rest =>
    (longestLoop d0 1 1 rest, currentOf today ((d0 :: rest).reverse))

/-- `calculate_streaks` (lines 18-64), with `datetime.now().date()` supplied
as the explicit parameter `today`. -/
def calculate_streaks (today : ℤ) (commit_dates : List DateTime) : ℕ × ℕ :=
  if commit_dates.isEmpty then (0, 0)
  else streaksOfSorted today (sortedDates commit_dates)

/-- The `AUTHOR_MAPPINGS` table applied via `.get(name, name)` (lines 11-16,
line 159). -/
def AUTHOR_MAPPINGS (s : String) : String :=
  if s = "ntunjic" then "Niko"
  else if s = "Niko" then "Niko"
  else if s = "Waluigi-dev" then "Waluigi-dev"
  else if s = "if21b503" then "Waluigi-dev"
  else s

/-- The per-author accumulator: one value of the `stats` defaultdict
(lines 135-152).  `active_days` and `file_types` are Python sets,
`weekday_commits` a defaultdict from weekday (modelled as `day % 7`) to count. -/
structure AuthorStats where
  commits : ℕ
  files_changed : ℕ
  additions : ℕ
  deletions : ℕ
  active_days : Finset ℤ
  commit_dates : List DateTime
  weekday_commits : ℤ → ℕ
  tests_added : ℕ
  docs_added : ℕ
  fix_commits : ℕ
  refactor_commits : ℕ
  feature_commits : ℕ
  file_types : Finset (List Char)
  commit_sizes : List ℕ
  pr_related_commits : ℕ
  commit_messages : List (List Char)

/-- The defaultdict's default value: all counters zero, all containers empty. -/
def initAuthorStats : AuthorStats where
  commits := 0
  files_changed := 0
  additions := 0
  deletions := 0
  active_days := ∅
  commit_dates := []
  weekday_commits := fun _ => 0
  tests_added := 0
  docs_added := 0
  fix_commits := 0
  refactor_commits := 0
  feature_commits := 0
  file_types := ∅
  commit_sizes := []
  pr_related_commits := 0
  commit_messages := []

/-- State of the commit loop of `analyze_repo`: the `stats` defaultdict (total
function plus the set of keys created so far), `total_commits`, and the error
lines printed by the `except` branch (modelled as the truncated SHAs). -/
structure RepoState where
  stats : String → AuthorStats
  authors : Finset String
  total_commits : ℕ
  log : List (List Char)

/-- The loop state before the first commit. -/
def initState : RepoState where
  stats := fun _ => initAuthorStats
  authors := ∅
  total_commits := 0
  log := []

/-- The date-range guard of `analyze_repo` (lines 163-166): `true` when the
commit is skipped. -/
def skipB (s? e? : Option DateTime) (d : DateTime) : Bool :=
  (match s? with | some s => DateTime.ltb d s | none => false) ||
    (match e? with | some e => DateTime.ltb e d | none => false)

/-- The unconditional per-commit updates of `analyze_repo` (lines 169-172):
commit count, active day, stored datetime, weekday counter. -/
def updAuthorBase (c : Commit) (a : AuthorStats) : AuthorStats :=
  { a with
    commits := a.commits + 1
    active_days := insert c.committedDate.day a.active_days
    commit_dates := a.commit_dates ++ [c.committedDate]
    weekday_commits := fun w =>
      if w = c.committedDate.day % 7 then a.weekday_commits w + 1
      else a.weekday_commits w }

/-- One iteration of the `for file in commit.stats.files` loop of
`analyze_repo` (lines 175-183). -/
def fileStep (a : AuthorStats) (f : FileStat) : AuthorStats :=
  let a := { a with
    files_changed := a.files_changed + 1
    additions := a.additions + f.insertions
    deletions := a.deletions + f.deletions }
  match extOf f.path with
  | some e => { a with file_types := insert e a.file_types }
  | none => a

/-- The body of the `try` block of `analyze_repo` (lines 174-205): the
per-file accumulation, then the complexity-derived updates. -/
def updAuthorFiles (c : Commit) (fs : List FileStat) (a : AuthorStats) :
    AuthorStats :=
  let a := fs.foldl fileStep a
  let cx := get_commit_complexity c.message fs
  { a with
    commit_messages := a.commit_messages ++ [c.message]
    tests_added := a.tests_added + cx.test_changes
    docs_added := a.docs_added + cx.doc_changes
    commit_sizes := a.commit_sizes ++ [cx.commit_size]
    fix_commits := a.fix_commits + if cx.is_fix then 1 else 0
    refactor_commits := a.refactor_commits + if cx.is_refactor then 1 else 0
    feature_commits := a.feature_commits + if cx.is_feature then 1 else 0
    pr_related_commits :=
      a.pr_related_commits + if prRelatedB c.message then 1 else 0 }

/-- One iteration of the `for commit in repo.iter_commits()` loop of
`analyze_repo` (lines 157-210): date filter, base updates, then either the
`try` body (stats available) or the `except` branch (stats raise: only the
base updates survive and an error line is printed). -/
def processCommit (s? e? : Option DateTime) (st : RepoState) (c : Commit) :
    RepoState :=
  let author := AUTHOR_MAPPINGS c.authorName
  if skipB s? e? c.committedDate then st
  else
    let base := updAuthorBase c (st.stats author)
    match c.fileStats with
    | none =>
      { stats := fun n => if n = author then base else st.stats n
        authors := insert author st.authors
        total_commits := st.total_commits + 1
        log := st.log ++ [c.hexsha.take 8] }
    | some fs =>
      { stats := fun n => if n = author then updAuthorFiles c fs base
                          else st.stats n
        authors := insert author st.authors
        total_commits := st.total_commits + 1
        log := st.log }

/-- The commit loop of `analyze_repo` (lines 128-210): `start_date`/`end_date`
are parsed to midnights by `strptime` when present, then every commit is
folded into the state. -/
def analyze_repo (start? end? : Option ℤ) (commits : List Commit) : RepoState :=
  commits.foldl (processCommit (start?.map midnight) (end?.map midnight))
    initState

/-- `code_churn` (line 237). -/
def code_churn (a : AuthorStats) : ℕ := a.additions + a.deletions

/-- `impact_ratio` (line 238): zero-guarded rational division. -/
def impact_ratio (a : AuthorStats) : ℚ :=
  if 0 < code_churn a then
    ((a.additions : ℚ) - (a.deletions : ℚ)) / (code_churn a : ℚ)
  else 0

/-- `test_ratio` (line 241). -/
def test_ratio (a : AuthorStats) : ℚ :=
  if 0 < a.additions then (a.tests_added : ℚ) / (a.additions : ℚ) else 0

/-- `doc_ratio` (line 242). -/
def doc_ratio (a : AuthorStats) : ℚ :=
  if 0 < a.additions then (a.docs_added : ℚ) / (a.additions : ℚ) else 0

/-- `atomic_commits` (line 252): the number of recorded sizes `≤ 50`. -/
def atomic_commits (a : AuthorStats) : ℕ :=
  (a.commit_sizes.filter fun s => decide (s ≤ 50)).length

/-- `atomic_commit_ratio` (lines 249-263): computed only when some sizes were
recorded, itself zero-guarded on the commit count. -/
def atomic_commit_ratio (a : AuthorStats) : ℚ :=
  if a.commit_sizes.isEmpty then 0
  else if 0 < a.commits then (atomic_commits a : ℚ) / (a.commits : ℚ)
  else 0

/-- Each loop iteration of `get_commit_complexity` preserves the bucket
partition of the commit size. -/
lemma complexityStep_partition (m : ComplexityMetrics) (f : FileStat)
    (h : m.test_changes + m.doc_changes + m.code_changes = m.commit_size) :
    (complexityStep m f).test_changes + (complexityStep m f).doc_changes +
      (complexityStep m f).code_changes = (complexityStep m f).commit_size := by
  unfold complexityStep
  cases hext : extOf f.path <;> split_ifs <;> simp_all <;> omega

/-- The bucket partition is an invariant of the file fold of
`get_commit_complexity`. -/
lemma foldl_complexity_partition (files : List FileStat) :
    ∀ m : ComplexityMetrics,
      m.test_changes + m.doc_changes + m.code_changes = m.commit_size →
      (files.foldl complexityStep m).test_changes +
        (files.foldl complexityStep m).doc_changes +
        (files.foldl complexityStep m).code_changes =
        (files.foldl complexityStep m).commit_size := by
  induction files with
  | nil => intro m h; simpa using h
  | cons f t ih =>
    intro m h
    simp only [List.foldl_cons]
    exact ih _ (complexityStep_partition m f h)

/-- C9: for every commit, the bucket totals returned by
`get_commit_complexity` partition the commit's churn:
`test_changes + doc_changes + code_changes = commit_size`, each file's
insertions+deletions being added to exactly one bucket. -/
theorem C9_buckets_partition_churn (message : List Char)
    (files : List FileStat) :
    (get_commit_complexity message files).test_changes +
      (get_commit_complexity message files).doc_changes +
      (get_commit_complexity message files).code_changes =
      (get_commit_complexity message files).commit_size := by
  unfold get_commit_complexity
  exact foldl_complexity_partition files _ (by simp)

/-- The path `tests/foo_test.ext` of the spec's worked example. -/
def tfPath : List Char := "tests/foo_test.ext".toList

/-- The path `readme`. -/
def rmPath : List Char := "readme".toList

/-- C5: a commit whose only changed file is `tests/foo_test.ext` with 10
insertions and 2 deletions yields `test_changes = 12`, `code_changes = 0`,
`doc_changes = 0`, `commit_size = 12`; in general a single file's
insertions+deletions go to the test bucket when the lower-cased path contains
`test` or `/tests/`, else to the doc bucket when it contains `doc`, `readme`
or `.md`, else to the code bucket. -/
theorem C5_per_file_buckets :
    ((get_commit_complexity [] [⟨tfPath, 10, 2⟩]).test_changes = 12 ∧
      (get_commit_complexity [] [⟨tfPath, 10, 2⟩]).code_changes = 0 ∧
      (get_commit_complexity [] [⟨tfPath, 10, 2⟩]).doc_changes = 0 ∧
      (get_commit_complexity [] [⟨tfPath, 10, 2⟩]).commit_size = 12) ∧
    ∀ (msg p : List Char) (i d : ℕ),
      (testCondB p = true →
        (get_commit_complexity msg [⟨p, i, d⟩]).test_changes = i + d ∧
          (get_commit_complexity msg [⟨p, i, d⟩]).doc_changes = 0 ∧
          (get_commit_complexity msg [⟨p, i, d⟩]).code_changes = 0) ∧
      (testCondB p = false → docCondB p = true →
        (get_commit_complexity msg [⟨p, i, d⟩]).doc_changes = i + d ∧
          (get_commit_complexity msg [⟨p, i, d⟩]).test_changes = 0 ∧
          (get_commit_complexity msg [⟨p, i, d⟩]).code_changes = 0) ∧
      (testCondB p = false → docCondB p = false →
        (get_commit_complexity msg [⟨p, i, d⟩]).code_changes = i + d ∧
          (get_commit_complexity msg [⟨p, i, d⟩]).test_changes = 0 ∧
          (get_commit_complexity msg [⟨p, i, d⟩]).doc_changes = 0) := by
  constructor
  · decide
  · intro msg p i d
    refine ⟨fun ht => ?_, fun ht hd => ?_, fun ht hd => ?_⟩
    · unfold get_commit_complexity complexityStep
      simp only [List.foldl_cons, List.foldl_nil]
      cases hext : extOf p <;> simp [ht, hext]
    · unfold get_commit_complexity complexityStep
      simp only [List.foldl_cons, List.foldl_nil]
      cases hext : extOf p <;> simp [ht, hd, hext]
    · unfold get_commit_complexity complexityStep
      simp only [List.foldl_cons, List.foldl_nil]
      cases hext : extOf p <;> simp [ht, hd, hext]

/-- Witness for C5: a `readme` file with 3 insertions and 4 deletions lands
entirely in the doc bucket. -/
theorem C5_per_file_buckets_witness :
    (get_commit_complexity [] [⟨rmPath, 3, 4⟩]).doc_changes = 3 + 4 ∧
      (get_commit_complexity [] [⟨rmPath, 3, 4⟩]).test_changes = 0 ∧
      (get_commit_complexity [] [⟨rmPath, 3, 4⟩]).code_changes = 0 :=
  (C5_per_file_buckets.2 [] rmPath 3 4).2.1 (by decide) (by decide)

/-- C6: `impact_ratio` is `(additions - deletions) / (additions + deletions)`,
lies in `[-1, 1]` whenever `code_churn > 0`, and equals `0` when
`code_churn = 0`; the computation is total (the zero case is guarded, not an
error). -/
theorem C6_impact_ratio_bounds (a : AuthorStats) :
    (code_churn a = 0 → impact_ratio a = 0) ∧
    (0 < code_churn a → -1 ≤ impact_ratio a ∧ impact_ratio a ≤ 1) := by
  constructor
  · intro h
    unfold impact_ratio
    rw [if_neg (by omega)]
  · intro h
    have hpos : (0 : ℚ) < (code_churn a : ℚ) := by exact_mod_cast h
    unfold impact_ratio
    rw [if_pos h]
    constructor
    · rw [le_div_iff₀ hpos]
      unfold code_churn
      push_cast
      have : (0 : ℚ) ≤ (a.additions : ℚ) := by positivity
      linarith
    · rw [div_le_one hpos]
      unfold code_churn
      push_cast
      have : (0 : ℚ) ≤ (a.deletions : ℚ) := by positivity
      linarith

/-- An accumulator with churn 4 (3 additions, 1 deletion). -/
def churnStats : AuthorStats := { initAuthorStats with additions := 3, deletions := 1 }

/-- Witness for C6: the zero-churn accumulator has ratio 0, and an accumulator
with churn 4 has its ratio inside `[-1, 1]`. -/
theorem C6_impact_ratio_bounds_witness :
    impact_ratio initAuthorStats = 0 ∧
      (-1 ≤ impact_ratio churnStats ∧ impact_ratio churnStats ≤ 1) :=
  ⟨(C6_impact_ratio_bounds initAuthorStats).1 (by decide),
    (C6_impact_ratio_bounds churnStats).2 (by decide)⟩

/-- The value of `current_count` after the forward loop of
`calculate_streaks`: the length of the trailing run of consecutive dates,
extended by the incoming count `c` when the run reaches back to `prev`. -/
def finalCount (c : ℕ) (prev : ℤ) : List ℤ → ℕ
  | [] => c
  | d :: rest => if d - prev == 1 then finalCount (c + 1) d rest
                 else finalCount 1 d rest

/-- One plus the backward run of a descending date list (zero on the empty
list): the current-streak count before the today/yesterday gate. -/
def sucRun : List ℤ → ℕ
  | [] => 0
  | dn :: rprev => 1 + backRun dn rprev

/-- `longestLoop` dominates the running maximum it starts from. -/
lemma le_longestLoop (rest : List ℤ) :
    ∀ (prev : ℤ) (lg c : ℕ), max lg c ≤ longestLoop prev lg c rest := by
  induction rest with
  | nil => intro prev lg c; simp [longestLoop]
  | cons d t ih =>
    intro prev lg c
    unfold longestLoop
    by_cases h : d - prev == 1
    · rw [if_pos h]
      exact le_trans (max_le_max le_rfl (Nat.le_succ c)) (ih d lg (c + 1))
    · rw [if_neg h]
      exact le_trans (le_max_left _ 1) (ih d (max lg c) 1)

/-- `longestLoop` dominates the final trailing-run count. -/
lemma finalCount_le_longestLoop (rest : List ℤ) :
    ∀ (prev : ℤ) (lg c : ℕ), finalCount c prev rest ≤ longestLoop prev lg c rest := by
  induction rest with
  | nil => intro prev lg c; simp [finalCount, longestLoop]
  | cons d t ih =>
    intro prev lg c
    unfold finalCount longestLoop
    by_cases h : d - prev == 1
    · rw [if_pos h, if_pos h]; exact ih d lg (c + 1)
    · rw [if_neg h, if_neg h]; exact ih d (max lg c) 1

/-- Appending a final date to the loop input either extends the trailing run
by one (when consecutive with the previous last date) or resets it to one. -/
lemma finalCount_append (t : List ℤ) :
    ∀ (c : ℕ) (prev y : ℤ),
      finalCount c prev (t ++ [y]) =
        if y - (prev :: t).getLastD 0 == 1 then finalCount c prev t + 1
        else 1 := by
  induction t with
  | nil => intro c prev y; simp [finalCount]
  | cons a t ih =>
    intro c prev y
    simp only [List.cons_append, finalCount, List.getLastD_cons, List.append_eq]
    by_cases h : a - prev == 1
    · rw [if_pos h, if_pos h, ih, List.getLastD_cons]
    · rw [if_neg h, if_neg h, ih, List.getLastD_cons]

/-- A nonempty list reversed is its last element followed by the reversal of
the rest. -/
lemma reverse_cons_getLastD (a : ℤ) (t : List ℤ) :
    (a :: t).reverse = (a :: t).getLastD 0 :: (a :: t).dropLast.reverse := by
  induction t generalizing a with
  | nil => simp
  | cons b t ih => simp [List.getLastD_cons, ih b]

/-- The trailing-run count of the forward loop equals one plus the backward
walk on the reversed list: the two streak computations agree. -/
lemma finalCount_eq_sucRun (rest : List ℤ) (d0 : ℤ) :
    finalCount 1 d0 rest = sucRun ((d0 :: rest).reverse) := by
  induction rest using List.reverseRecOn with
  | nil => simp [finalCount, sucRun, backRun]
  | append_singleton t y ih =>
    rw [finalCount_append, ih]
    have hrev : (d0 :: (t ++ [y])).reverse = y :: (d0 :: t).reverse := by
      rw [← List.cons_append, List.reverse_append]
      simp
    rw [hrev, reverse_cons_getLastD d0 t]
    simp only [sucRun, backRun]
    by_cases h : y - (d0 :: t).getLastD 0 == 1
    · rw [if_pos h, if_pos h]; omega
    · rw [if_neg h, if_neg h]

/-- Inserting into a list adds one element. -/
lemma length_insertSorted (x : ℤ) (l : List ℤ) :
    (insertSorted x l).length = l.length + 1 := by
  induction l with
  | nil => rfl
  | cons y t ih =>
    unfold insertSorted
    by_cases h : x ≤ y
    · rw [if_pos h]; rfl
    · rw [if_neg h]; simp [ih]

/-- Sorting preserves the length. -/
lemma length_sortInts (l : List ℤ) : (sortInts l).length = l.length := by
  induction l with
  | nil => rfl
  | cons y t ih =>
    show (insertSorted y (sortInts t)).length = t.length + 1
    rw [length_insertSorted, ih]

/-- The nonempty-input sorted date list is nonempty. -/
lemma sortedDates_ne_nil (l : List DateTime) (h : l ≠ []) :
    sortedDates l ≠ [] := by
  obtain ⟨x, t, rfl⟩ := List.exists_cons_of_ne_nil h
  intro hc
  have hlen := congrArg List.length hc
  rw [sortedDates, length_sortInts] at hlen
  have hm : x.day ∈ ((x :: t).map DateTime.day).dedup := by
    rw [List.mem_dedup]
    simp
  rw [List.length_eq_zero.mp hlen] at hm
  exact List.not_mem_nil _ hm

/-- C3: for every evaluation date, `calculate_streaks` returns `(0, 0)` on
the empty list, and on every nonempty list of commit timestamps returns
`(longest_streak, current_streak)` with `longest_streak ≥ 1` and
`longest_streak ≥ current_streak`. -/
theorem C3_streak_inequalities (today : ℤ) (l : List DateTime) :
    calculate_streaks today [] = (0, 0) ∧
    (l ≠ [] →
      1 ≤ (calculate_streaks today l).1 ∧
      (calculate_streaks today l).2 ≤ (calculate_streaks today l).1) := by
  refine ⟨rfl, fun h => ?_⟩
  have hne := sortedDates_ne_nil l h
  rw [calculate_streaks, if_neg (by simpa [List.isEmpty_iff] using h)]
  obtain ⟨d0, rest, hs⟩ := List.exists_cons_of_ne_nil hne
  rw [hs]
  simp only [streaksOfSorted]
  constructor
  · exact le_trans (by simp) (le_longestLoop rest d0 1 1)
  · obtain ⟨dn, rprev, hr⟩ :=
      List.exists_cons_of_ne_nil (l := (d0 :: rest).reverse) (by simp)
    rw [hr]
    simp only [currentOf]
    by_cases hc : dn == today || dn == today - 1
    · rw [if_pos hc]
      have : 1 + backRun dn rprev = sucRun ((d0 :: rest).reverse) := by
        rw [hr]; rfl
      rw [this, ← finalCount_eq_sucRun]
      exact finalCount_le_longestLoop rest d0 1 1
    · rw [if_neg hc]
      exact Nat.zero_le _

/-- A single commit timestamp, midnight of day 0. -/
def wDates : List DateTime := [⟨0, 0⟩]

/-- Witness for C3: the singleton date list gives streaks with
`longest ≥ 1` and `current ≤ longest`. -/
theorem C3_streak_inequalities_witness :
    1 ≤ (calculate_streaks 5 wDates).1 ∧
      (calculate_streaks 5 wDates).2 ≤ (calculate_streaks 5 wDates).1 :=
  (C3_streak_inequalities 5 wDates).2 (by decide)

/-- The backward walk counts exactly the adjacent descending pairs with
difference one, taken from the front. -/
lemma backRun_eq_takeWhile (rest : List ℤ) :
    ∀ cur : ℤ,
      backRun cur rest =
        (((cur :: rest).zip rest).takeWhile fun p => p.1 - p.2 == 1).length := by
  induction rest with
  | nil => intro cur; simp [backRun]
  | cons d t ih =>
    intro cur
    by_cases hd : cur - d == 1
    · simp [backRun, List.takeWhile_cons, hd, ih d]
      omega
    · simp [backRun, List.takeWhile_cons, hd]

/-- C4: for every evaluation date `today` and nonempty timestamp list, the
current streak is nonzero exactly when the most recent distinct calendar date
is `today` or `today - 1`, and then equals the length of the backward run
from the latest date in which each prior distinct date is exactly one day
earlier (one plus the adjacent difference-one pairs of the descending date
list). -/
theorem C4_current_streak (today : ℤ) (l : List DateTime) (h : l ≠ []) :
    (calculate_streaks today l).2 =
      if (sortedDates l).reverse.head? = some today ∨
          (sortedDates l).reverse.head? = some (today - 1) then
        (((sortedDates l).reverse.zip ((sortedDates l).reverse.drop 1)).takeWhile
            fun p => p.1 - p.2 == 1).length + 1
      else 0 := by
  have hne := sortedDates_ne_nil l h
  rw [calculate_streaks, if_neg (by simpa [List.isEmpty_iff] using h)]
  obtain ⟨d0, rest, hs⟩ := List.exists_cons_of_ne_nil hne
  rw [hs]
  simp only [streaksOfSorted]
  obtain ⟨dn, rprev, hr⟩ :=
    List.exists_cons_of_ne_nil (l := (d0 :: rest).reverse) (by simp)
  rw [hr]
  simp only [currentOf, List.head?_cons, List.drop_one, List.tail_cons]
  rw [backRun_eq_takeWhile]
  by_cases hc : dn = today ∨ dn = today - 1
  · have hb : (dn == today || dn == today - 1) = true := by
      rcases hc with h1 | h1 <;> simp [h1]
    rw [if_pos hb, if_pos (by simpa using hc)]
    omega
  · have hb : ¬((dn == today || dn == today - 1) = true) := by
      simp only [not_or] at hc
      simp [hc.1, hc.2]
    rw [if_neg hb, if_neg (by simpa using hc)]

/-- Two commit timestamps on consecutive days, the later one at 01:00. -/
def wDates2 : List DateTime := [⟨0, 0⟩, ⟨1, 3600⟩]

/-- Witness for C4: with `today = 1` the two consecutive days give a
current streak of 2. -/
theorem C4_current_streak_witness : (calculate_streaks 1 wDates2).2 = 2 := by
  have h := C4_current_streak 1 wDates2 (by decide)
  rw [h]
  decide

/-- Spec test: dates on days 0,1,2 with today = 2 give streaks (3, 3). -/
example : calculate_streaks 2 [⟨0, 0⟩, ⟨1, 5⟩, ⟨2, 7⟩] = (3, 3) := by decide

/-- Spec test: a gap (days 0 and 2) with today = 2 gives streaks (1, 1). -/
example : calculate_streaks 2 [⟨0, 0⟩, ⟨2, 0⟩] = (1, 1) := by decide

/-- The base updates increment the commit counter. -/
lemma updAuthorBase_commits (c : Commit) (a : AuthorStats) :
    (updAuthorBase c a).commits = a.commits + 1 := rfl

/-- The base updates do not touch the size list. -/
lemma updAuthorBase_commit_sizes (c : Commit) (a : AuthorStats) :
    (updAuthorBase c a).commit_sizes = a.commit_sizes := rfl

/-- The per-file loop does not touch the commit counter. -/
lemma fileStep_commits (a : AuthorStats) (f : FileStat) :
    (fileStep a f).commits = a.commits := by
  unfold fileStep
  cases extOf f.path <;> rfl

/-- The per-file loop does not touch the size list. -/
lemma fileStep_commit_sizes (a : AuthorStats) (f : FileStat) :
    (fileStep a f).commit_sizes = a.commit_sizes := by
  unfold fileStep
  cases extOf f.path <;> rfl

/-- The folded per-file loop does not touch the commit counter. -/
lemma foldl_fileStep_commits (fs : List FileStat) :
    ∀ a : AuthorStats, (fs.foldl fileStep a).commits = a.commits := by
  induction fs with
  | nil => intro a; rfl
  | cons f t ih => intro a; rw [List.foldl_cons, ih, fileStep_commits]

/-- The folded per-file loop does not touch the size list. -/
lemma foldl_fileStep_commit_sizes (fs : List FileStat) :
    ∀ a : AuthorStats, (fs.foldl fileStep a).commit_sizes = a.commit_sizes := by
  induction fs with
  | nil => intro a; rfl
  | cons f t ih => intro a; rw [List.foldl_cons, ih, fileStep_commit_sizes]

/-- The `try`-block updates do not touch the commit counter. -/
lemma updAuthorFiles_commits (c : Commit) (fs : List FileStat)
    (a : AuthorStats) : (updAuthorFiles c fs a).commits = a.commits := by
  unfold updAuthorFiles
  simp only []
  rw [foldl_fileStep_commits]

/-- The `try`-block updates append exactly one recorded size. -/
lemma updAuthorFiles_commit_sizes (c : Commit) (fs : List FileStat)
    (a : AuthorStats) :
    (updAuthorFiles c fs a).commit_sizes =
      a.commit_sizes ++ [(get_commit_complexity c.message fs).commit_size] := by
  unfold updAuthorFiles
  simp only []
  rw [foldl_fileStep_commit_sizes]

/-- Adding the updated accumulator for `author` and inserting the key raises
the commit-count sum by exactly one. -/
lemma sum_commits_insert (A : Finset String) (f : String → AuthorStats)
    (author : String) (v : AuthorStats)
    (hv : v.commits = (f author).commits + 1)
    (h0 : author ∉ A → (f author).commits = 0) :
    (∑ n ∈ insert author A, (if n = author then v else f n).commits) =
      (∑ n ∈ A, (f n).commits) + 1 := by
  by_cases hmem : author ∈ A
  · rw [Finset.insert_eq_self.mpr hmem]
    calc ∑ n ∈ A, (if n = author then v else f n).commits
        = (∑ n ∈ A.erase author, (if n = author then v else f n).commits) +
            (if author = author then v else f author).commits :=
          (Finset.sum_erase_add A _ hmem).symm
      _ = (∑ n ∈ A.erase author, (f n).commits) + ((f author).commits + 1) := by
          congr 1
          · refine Finset.sum_congr rfl fun n hn => ?_
            rw [if_neg (Finset.ne_of_mem_erase hn)]
          · rw [if_pos rfl, hv]
      _ = ((∑ n ∈ A.erase author, (f n).commits) + (f author).commits) + 1 := by
          omega
      _ = (∑ n ∈ A, (f n).commits) + 1 := by rw [Finset.sum_erase_add A _ hmem]
  · rw [Finset.sum_insert hmem, if_pos rfl]
    have hz : (f author).commits = 0 := h0 hmem
    have hrest : (∑ n ∈ A, (if n = author then v else f n).commits) =
        ∑ n ∈ A, (f n).commits := by
      refine Finset.sum_congr rfl fun n hn => ?_
      rw [if_neg (by rintro rfl; exact hmem hn)]
    rw [hrest, hv, hz]
    omega

/-- The C1 loop invariant: the commit counts of the created keys sum to
`total_commits`, and untouched keys hold zero commits. -/
def commitsInv (st : RepoState) : Prop :=
  (∑ n ∈ st.authors, (st.stats n).commits) = st.total_commits ∧
  ∀ n, n ∉ st.authors → (st.stats n).commits = 0

/-- One loop iteration preserves the C1 invariant, in both the success and
the exception branch. -/
lemma processCommit_commitsInv (s? e? : Option DateTime) (c : Commit)
    (st : RepoState) (h : commitsInv st) :
    commitsInv (processCommit s? e? st c) := by
  unfold processCommit
  by_cases hskip : skipB s? e? c.committedDate
  · rw [if_pos hskip]; exact h
  · rw [if_neg hskip]
    cases hfs : c.fileStats with
    | none =>
      constructor
      · simp only []
        rw [sum_commits_insert st.authors st.stats _ _
          (updAuthorBase_commits c _) (h.2 _), h.1]
      · intro n hn
        simp only [Finset.mem_insert, not_or] at hn
        simp only [if_neg hn.1]
        exact h.2 n hn.2
    | some fs =>
      constructor
      · simp only []
        rw [sum_commits_insert st.authors st.stats _ _
          (by rw [updAuthorFiles_commits, updAuthorBase_commits]) (h.2 _), h.1]
      · intro n hn
        simp only [Finset.mem_insert, not_or] at hn
        simp only [if_neg hn.1]
        exact h.2 n hn.2

/-- The C1 invariant is preserved by the whole commit fold. -/
lemma foldl_commitsInv (s? e? : Option DateTime) (cs : List Commit) :
    ∀ st : RepoState, commitsInv st →
      commitsInv (cs.foldl (processCommit s? e?) st) := by
  induction cs with
  | nil => intro st h; exact h
  | cons c t ih =>
    intro st h
    exact ih _ (processCommit_commitsInv s? e? c st h)

/-- C1: after date filtering, the per-author `commits` counters of
`analyze_repo` sum to `total_commits`, for every input commit sequence,
including commits whose file-stat extraction raises (the exception branch). -/
theorem C1_commit_sum (start? end? : Option ℤ) (commits : List Commit) :
    (∑ n ∈ (analyze_repo start? end? commits).authors,
        ((analyze_repo start? end? commits).stats n).commits) =
      (analyze_repo start? end? commits).total_commits := by
  refine (foldl_commitsInv _ _ commits initState ⟨?_, ?_⟩).1
  · simp [initState]
  · intro n _
    rfl

/-- On a commit whose stat extraction raises (and that passes the date
filter), the loop iteration reduces to the base updates plus the error log
line. -/
lemma processCommit_none_eq (s? e? : Option DateTime) (st : RepoState)
    (c : Commit) (hskip : skipB s? e? c.committedDate = false)
    (hfs : c.fileStats = none) :
    processCommit s? e? st c =
      { stats := fun n =>
          if n = AUTHOR_MAPPINGS c.authorName
          then updAuthorBase c (st.stats (AUTHOR_MAPPINGS c.authorName))
          else st.stats n
        authors := insert (AUTHOR_MAPPINGS c.authorName) st.authors
        total_commits := st.total_commits + 1
        log := st.log ++ [c.hexsha.take 8] } := by
  unfold processCommit
  rw [hfs, if_neg (by simp [hskip])]

/-- C8: if file-stat extraction for a commit raises, the run continues: the
commit still counts toward `total_commits`, the author's `commits`,
`active_days`, stored dates and weekday counts, the truncated SHA is logged,
and every file-level metric (files_changed, additions, deletions, buckets,
commit_sizes, file types, fix/refactor/feature/PR counters, messages) is left
unchanged; other authors are untouched. -/
theorem C8_exception_branch (s? e? : Option DateTime) (st : RepoState)
    (c : Commit) (hskip : skipB s? e? c.committedDate = false)
    (hfs : c.fileStats = none) :
    (processCommit s? e? st c).total_commits = st.total_commits + 1 ∧
    (processCommit s? e? st c).log = st.log ++ [c.hexsha.take 8] ∧
    ((processCommit s? e? st c).stats (AUTHOR_MAPPINGS c.authorName)).commits =
      (st.stats (AUTHOR_MAPPINGS c.authorName)).commits + 1 ∧
    ((processCommit s? e? st c).stats (AUTHOR_MAPPINGS c.authorName)).active_days =
      insert c.committedDate.day
        (st.stats (AUTHOR_MAPPINGS c.authorName)).active_days ∧
    ((processCommit s? e? st c).stats (AUTHOR_MAPPINGS c.authorName)).commit_dates =
      (st.stats (AUTHOR_MAPPINGS c.authorName)).commit_dates ++
        [c.committedDate] ∧
    ((processCommit s? e? st c).stats
          (AUTHOR_MAPPINGS c.authorName)).weekday_commits
        (c.committedDate.day % 7) =
      (st.stats (AUTHOR_MAPPINGS c.authorName)).weekday_commits
          (c.committedDate.day % 7) + 1 ∧
    ((processCommit s? e? st c).stats (AUTHOR_MAPPINGS c.authorName)).files_changed =
      (st.stats (AUTHOR_MAPPINGS c.authorName)).files_changed ∧
    ((processCommit s? e? st c).stats (AUTHOR_MAPPINGS c.authorName)).additions =
      (st.stats (AUTHOR_MAPPINGS c.authorName)).additions ∧
    ((processCommit s? e? st c).stats (AUTHOR_MAPPINGS c.authorName)).deletions =
      (st.stats (AUTHOR_MAPPINGS c.authorName)).deletions ∧
    ((processCommit s? e? st c).stats (AUTHOR_MAPPINGS c.authorName)).tests_added =
      (st.stats (AUTHOR_MAPPINGS c.authorName)).tests_added ∧
    ((processCommit s? e? st c).stats (AUTHOR_MAPPINGS c.authorName)).docs_added =
      (st.stats (AUTHOR_MAPPINGS c.authorName)).docs_added ∧
    ((processCommit s? e? st c).stats (AUTHOR_MAPPINGS c.authorName)).commit_sizes =
      (st.stats (AUTHOR_MAPPINGS c.authorName)).commit_sizes ∧
    ((processCommit s? e? st c).stats (AUTHOR_MAPPINGS c.authorName)).file_types =
      (st.stats (AUTHOR_MAPPINGS c.authorName)).file_types ∧
    ((processCommit s? e? st c).stats (AUTHOR_MAPPINGS c.authorName)).fix_commits =
      (st.stats (AUTHOR_MAPPINGS c.authorName)).fix_commits ∧
    ((processCommit s? e? st c).stats (AUTHOR_MAPPINGS c.authorName)).refactor_commits =
      (st.stats (AUTHOR_MAPPINGS c.authorName)).refactor_commits ∧
    ((processCommit s? e? st c).stats (AUTHOR_MAPPINGS c.authorName)).feature_commits =
      (st.stats (AUTHOR_MAPPINGS c.authorName)).feature_commits ∧
    ((processCommit s? e? st c).stats (AUTHOR_MAPPINGS c.authorName)).pr_related_commits =
      (st.stats (AUTHOR_MAPPINGS c.authorName)).pr_related_commits ∧
    ((processCommit s? e? st c).stats (AUTHOR_MAPPINGS c.authorName)).commit_messages =
      (st.stats (AUTHOR_MAPPINGS c.authorName)).commit_messages ∧
    ∀ n, n ≠ AUTHOR_MAPPINGS c.authorName →
      (processCommit s? e? st c).stats n = st.stats n := by
  rw [processCommit_none_eq s? e? st c hskip hfs]
  exact ⟨rfl, rfl, by simp [updAuthorBase], by simp [updAuthorBase],
    by simp [updAuthorBase], by simp [updAuthorBase], by simp [updAuthorBase],
    by simp [updAuthorBase], by simp [updAuthorBase], by simp [updAuthorBase],
    by simp [updAuthorBase], by simp [updAuthorBase], by simp [updAuthorBase],
    by simp [updAuthorBase], by simp [updAuthorBase], by simp [updAuthorBase],
    by simp [updAuthorBase], by simp [updAuthorBase],
    fun n hn => by simp [hn]⟩

/-- Author name for the C8 witness commit. -/
def nameA : String := "alice"

/-- SHA of the C8 witness commit. -/
def shaEx : List Char := "deadbeefcafe".toList

/-- A commit whose stat extraction raises. -/
def c8commit : Commit where
  authorName := nameA
  committedDate := ⟨0, 30⟩
  message := []
  hexsha := shaEx
  fileStats := none

/-- Witness for C8: the failing commit still increments `total_commits`. -/
theorem C8_exception_branch_witness :
    (processCommit none none initState c8commit).total_commits =
      initState.total_commits + 1 :=
  (C8_exception_branch none none initState c8commit (by decide) rfl).1

/-- Author name for the C2 counterexample commit. -/
def cEndName : String := "bob"

/-- A commit dated on day 0 at 00:00:01. -/
def cEndCommit : Commit where
  authorName := cEndName
  committedDate := ⟨0, 1⟩
  message := []
  hexsha := []
  fileStats := some []

/-- Counterexample to C2 as stated: with `end_date` = day 0, the commit
`cEndCommit` is dated on `end_date` itself (its calendar day is 0, not
strictly after day 0), yet it is excluded from `total_commits`. -/
theorem C2_counterexample :
    cEndCommit.committedDate.day = 0 ∧
      (analyze_repo none (some 0) [cEndCommit]).total_commits = 0 :=
  ⟨rfl, rfl⟩

/-- C2 (amended): `strptime` turns both bounds into midnights, so a commit is
excluded from all aggregates iff its datetime is strictly before midnight of
`start_date` or strictly after midnight of `end_date`: every commit on the
start day is kept, but of the end day only a commit at exactly 00:00:00 is
kept; an included commit increments `total_commits`. -/
theorem C2_date_filter_amended (s? e? : Option ℤ) (st : RepoState)
    (c : Commit) :
    (skipB (s?.map midnight) (e?.map midnight) c.committedDate = true ↔
      (∃ s, s? = some s ∧ c.committedDate.day < s) ∨
        (∃ e, e? = some e ∧
          (e < c.committedDate.day ∨
            (c.committedDate.day = e ∧ 0 < c.committedDate.sec)))) ∧
    (skipB (s?.map midnight) (e?.map midnight) c.committedDate = true →
      processCommit (s?.map midnight) (e?.map midnight) st c = st) ∧
    (skipB (s?.map midnight) (e?.map midnight) c.committedDate = false →
      (processCommit (s?.map midnight) (e?.map midnight) st c).total_commits =
        st.total_commits + 1) := by
  refine ⟨?_, ?_, ?_⟩
  · cases s? <;> cases e? <;>
      simp [skipB, midnight, DateTime.ltb, Option.map_some', Option.map_none'] <;>
      omega
  · intro h
    unfold processCommit
    rw [if_pos h]
  · intro h
    unfold processCommit
    rw [if_neg (by simp [h])]
    cases hfs : c.fileStats <;> rfl

/-- Witness for C2 (amended): a commit on day 0 is skipped for
`start_date` = day 1 and leaves the state unchanged, while with no bounds it
increments `total_commits`. -/
theorem C2_date_filter_amended_witness :
    processCommit ((some 1 : Option ℤ).map midnight)
        ((none : Option ℤ).map midnight) initState cEndCommit = initState ∧
      (processCommit ((none : Option ℤ).map midnight)
            ((none : Option ℤ).map midnight) initState cEndCommit).total_commits =
        initState.total_commits + 1 :=
  ⟨(C2_date_filter_amended (some 1) none initState cEndCommit).2.1 (by decide),
    (C2_date_filter_amended none none initState cEndCommit).2.2 (by decide)⟩

/-- The C7 loop invariant: per author, at most one size is recorded per
counted commit (the exception branch records none). -/
def sizesInv (st : RepoState) : Prop :=
  ∀ n, ((st.stats n).commit_sizes).length ≤ (st.stats n).commits

/-- One loop iteration preserves the C7 invariant. -/
lemma processCommit_sizesInv (s? e? : Option DateTime) (c : Commit)
    (st : RepoState) (h : sizesInv st) :
    sizesInv (processCommit s? e? st c) := by
  unfold processCommit
  by_cases hskip : skipB s? e? c.committedDate
  · rw [if_pos hskip]; exact h
  · rw [if_neg hskip]
    cases hfs : c.fileStats with
    | none =>
      intro n
      simp only []
      by_cases hn : n = AUTHOR_MAPPINGS c.authorName
      · rw [if_pos hn, updAuthorBase_commit_sizes, updAuthorBase_commits]
        exact le_trans (h _) (by omega)
      · rw [if_neg hn]; exact h n
    | some fs =>
      intro n
      simp only []
      by_cases hn : n = AUTHOR_MAPPINGS c.authorName
      · rw [if_pos hn, updAuthorFiles_commit_sizes, updAuthorFiles_commits,
          updAuthorBase_commit_sizes, updAuthorBase_commits]
        have := h (AUTHOR_MAPPINGS c.authorName)
        simp only [List.length_append, List.length_cons, List.length_nil]
        omega
      · rw [if_neg hn]; exact h n

/-- The C7 invariant is preserved by the whole commit fold. -/
lemma foldl_sizesInv (s? e? : Option DateTime) (cs : List Commit) :
    ∀ st : RepoState, sizesInv st →
      sizesInv (cs.foldl (processCommit s? e?) st) := by
  induction cs with
  | nil => intro st h; exact h
  | cons c t ih =>
    intro st h
    exact ih _ (processCommit_sizesInv s? e? c st h)

/-- Every output of `analyze_repo` satisfies the C7 invariant. -/
lemma analyze_repo_sizesInv (start? end? : Option ℤ) (commits : List Commit) :
    sizesInv (analyze_repo start? end? commits) :=
  foldl_sizesInv _ _ commits initState fun _ => Nat.le_refl 0

/-- Bounds of `atomic_commit_ratio` for any accumulator recording at most one
size per commit. -/
lemma atomic_ratio_bounds (a : AuthorStats)
    (hinv : a.commit_sizes.length ≤ a.commits) :
    0 ≤ atomic_commit_ratio a ∧ atomic_commit_ratio a ≤ 1 ∧
      (a.commit_sizes ≠ [] → a.commit_sizes.length = a.commits →
        (∀ s ∈ a.commit_sizes, s ≤ 50) → atomic_commit_ratio a = 1) := by
  unfold atomic_commit_ratio
  by_cases hemp : a.commit_sizes.isEmpty
  · rw [if_pos hemp]
    exact ⟨le_refl 0, by norm_num,
      fun hne => absurd (List.isEmpty_iff.mp hemp) hne⟩
  · rw [if_neg hemp]
    have hlen1 : 1 ≤ a.commit_sizes.length := by
      have : a.commit_sizes ≠ [] := by
        intro hc; exact hemp (by simp [hc])
      have := List.length_pos.mpr this
      omega
    have hcom : 0 < a.commits := lt_of_lt_of_le (by omega) hinv
    rw [if_pos hcom]
    have hcpos : (0 : ℚ) < (a.commits : ℚ) := by exact_mod_cast hcom
    have hatomic : atomic_commits a ≤ a.commits := by
      unfold atomic_commits
      exact le_trans (List.length_filter_le _ _) hinv
    refine ⟨by positivity, ?_, ?_⟩
    · rw [div_le_one hcpos]
      exact_mod_cast hatomic
    · intro _ hlen hall
      have hfilt : atomic_commits a = a.commit_sizes.length := by
        unfold atomic_commits
        rw [List.filter_eq_self.mpr fun x hx => by simpa using hall x hx]
      rw [hfilt, hlen, div_self (ne_of_gt hcpos)]

/-- C7 (amended): for every run of `analyze_repo` and every author,
`atomic_commit_ratio` lies in `[0, 1]`; it equals 1 whenever at least one
size was recorded, the number of recorded sizes equals the author's commit
count (no commit was lost to a stat-extraction failure), and every recorded
size is at most 50. -/
theorem C7_atomic_ratio (start? end? : Option ℤ) (commits : List Commit)
    (author : String) :
    0 ≤ atomic_commit_ratio ((analyze_repo start? end? commits).stats author) ∧
    atomic_commit_ratio ((analyze_repo start? end? commits).stats author) ≤ 1 ∧
    (((analyze_repo start? end? commits).stats author).commit_sizes ≠ [] →
      ((analyze_repo start? end? commits).stats author).commit_sizes.length =
        ((analyze_repo start? end? commits).stats author).commits →
      (∀ s ∈ ((analyze_repo start? end? commits).stats author).commit_sizes,
        s ≤ 50) →
      atomic_commit_ratio ((analyze_repo start? end? commits).stats author) = 1) :=
  atomic_ratio_bounds _ (analyze_repo_sizesInv start? end? commits author)

/-- Author name for the C7 counterexample commit. -/
def cFailName : String := "carol"

/-- A commit of `carol` whose stat extraction raises. -/
def cFail : Commit where
  authorName := cFailName
  committedDate := ⟨0, 0⟩
  message := []
  hexsha := "abc12345".toList
  fileStats := none

/-- Counterexample to C7 as stated: after a run in which `carol`'s only
commit hits the exception branch, every recorded commit size is at most 50
(vacuously), yet `atomic_commit_ratio` is 0, not 1. -/
theorem C7_counterexample :
    (∀ s ∈ ((analyze_repo none none [cFail]).stats cFailName).commit_sizes,
        s ≤ 50) ∧
      atomic_commit_ratio ((analyze_repo none none [cFail]).stats cFailName) ≠ 1 := by
  constructor
  · decide
  · decide

/-- Author name for the C7 witness commit. -/
def cGoodName : String := "dave"

/-- Path of a plain source file. -/
def srcPath : List Char := "src/a.py".toList

/-- A commit of `dave` with one small successfully-analyzed file change. -/
def cGood : Commit where
  authorName := cGoodName
  committedDate := ⟨0, 0⟩
  message := []
  hexsha := []
  fileStats := some [⟨srcPath, 5, 5⟩]

/-- Witness for C7 (amended): one commit of size 10 gives ratio exactly 1. -/
theorem C7_atomic_ratio_witness :
    atomic_commit_ratio ((analyze_repo none none [cGood]).stats cGoodName) = 1 :=
  (C7_atomic_ratio none none [cGood] cGoodName).2.2 (by decide) (by decide)
    (by decide)

/-- Author name for the C10 commit. -/
def c10name : String := "erin"

/-- A test-bucket path. -/
def tPath : List Char := "tests/a".toList

/-- A doc-bucket path. -/
def dPath : List Char := "docs/b".toList

/-- A commit deleting mostly lines from a test file and a doc file. -/
def c10commit : Commit where
  authorName := c10name
  committedDate := ⟨0, 0⟩
  message := []
  hexsha := []
  fileStats := some [⟨tPath, 1, 5⟩, ⟨dPath, 1, 5⟩]

/-- C10: `test_ratio` and `doc_ratio` are not bounded above by 1: on a run
whose single commit mostly deletes lines from a test file and a doc file,
both ratios exceed 1, because the numerators accumulate insertions plus
deletions while the denominator is insertions only. -/
theorem C10_ratio_above_one :
    1 < test_ratio ((analyze_repo none none [c10commit]).stats c10name) ∧
      1 < doc_ratio ((analyze_repo none none [c10commit]).stats c10name) := by
  have ha : ((analyze_repo none none [c10commit]).stats c10name).additions = 2 := by
    decide
  have ht : ((analyze_repo none none [c10commit]).stats c10name).tests_added = 6 := by
    decide
  have hd : ((analyze_repo none none [c10commit]).stats c10name).docs_added = 6 := by
    decide
  unfold test_ratio doc_ratio
  rw [ha, ht, hd]
  norm_num
